import Mathlib

/-!
Verification development for the proof-of-stake blockchain node
(`blockchain_node.py`) and the limit-order-book exchange (`exchange.py`).

Modelling conventions:
* Machine integers of the source (Python `int`) are Lean `Int`.
* Timestamps are numeric values compared and sorted by the source; they are
  modelled as `Int` (their exact scale is irrelevant to every property here).
* A transaction's `amount` field can hold a non-integer JSON value in the
  source; `Amount` keeps that case explicit.
* `hashlib.sha256(json.dumps(..., sort_keys=True))` is a fixed deterministic
  function of the canonical serialization, and the serialization of these
  fixed-schema records is injective.  The digest is therefore modelled by the
  canonical content itself (constructor `HashVal.digest`), so equality of
  modelled hashes coincides with equality of the real digests under the usual
  collision-freeness reading of SHA-256.
* Python's `sorted(..., key=lambda tx: tx['timestamp'])` is a stable sort by
  timestamp; a stable sort by a key is unique as a function, and is modelled
  by insertion sort with the reflexive-total timestamp order.
-/

/-- Main token name of the two-token node (`TOKEN_NAME`). -/
def TOKEN_NAME : String := "MAIN"

/-- Secondary token name of the two-token node (`SECONDARY_TOKEN_NAME`). -/
def SECONDARY_TOKEN_NAME : String := "SECOND"

/-- Reserved faucet sender address (`FAUCET_ADDRESS = "0"`). -/
def FAUCET_ADDRESS : String := "0"

/-- A transaction amount: either a Python `int` or some non-integer JSON value
(the payload names the stray value so distinct junk stays distinct). -/
inductive Amount where
  | int (n : Int)
  | nonInt (s : String)
deriving DecidableEq

/-- A transaction record, as the dicts built by `add_transaction`:
`{sender, recipient, amount, token_type, timestamp, transaction_id}`.
An absent or empty (falsy) `transaction_id` is modelled by `""`. -/
structure Tx where
  sender : String
  recipient : String
  amount : Amount
  token_type : String
  timestamp : Int
  transaction_id : String
deriving DecidableEq

/-- The order used by `sorted(self.transactions, key=lambda tx: tx['timestamp'])`. -/
def txLe (a b : Tx) : Prop := a.timestamp ≤ b.timestamp

instance : DecidableRel txLe := fun a b => inferInstanceAs (Decidable (a.timestamp ≤ b.timestamp))

instance : IsTotal Tx txLe := ⟨fun a b => Int.le_total a.timestamp b.timestamp⟩

instance : IsTrans Tx txLe := ⟨fun _ _ _ h h2 => Int.le_trans h h2⟩

/-- Stable sort of transactions by ascending timestamp, the canonical order
used inside `Block.calculate_hash` and `create_new_block`. -/
def sortTxs (l : List Tx) : List Tx := List.insertionSort txLe l

/-- A hash value: either a literal string (such as the genesis `previous_hash`
`"0"`, or tampered values) or the SHA-256 digest of the canonical block
serialization, modelled by the serialized content itself. -/
inductive HashVal where
  | str (s : String)
  | digest (index : Int) (timestamp : Int) (transactions : List Tx)
      (previous_hash : HashVal) (validator : String)
deriving DecidableEq

/-- A block, with the fields of `Block.__init__`. -/
structure Block where
  index : Int
  timestamp : Int
  transactions : List Tx
  previous_hash : HashVal
  validator : String
  hash : HashVal
deriving DecidableEq

/-- `Block.calculate_hash`: SHA-256 of the canonical JSON of
`{index, timestamp, transactions sorted by timestamp, previous_hash,
validator}`, modelled by the canonical content (see the header comment). -/
def Block.calculate_hash (b : Block) : HashVal :=
  .digest b.index b.timestamp (sortTxs b.transactions) b.previous_hash b.validator

/-- Block construction without a supplied hash (`Block(...)` with
`hash=None`): the stored hash is computed by `calculate_hash`. -/
def Block.make (index timestamp : Int) (transactions : List Tx)
    (previous_hash : HashVal) (validator : String) : Block :=
  { index, timestamp, transactions, previous_hash, validator,
    hash := .digest index timestamp (sortTxs transactions) previous_hash validator }

theorem Block.make_hash (index timestamp : Int) (transactions : List Tx)
    (previous_hash : HashVal) (validator : String) :
    (Block.make index timestamp transactions previous_hash validator).hash =
      (Block.make index timestamp transactions previous_hash validator).calculate_hash := rfl

/-- `create_genesis_block`: index 0, timestamp 0, no transactions,
previous hash `"0"`, validator `"Genesis"`. -/
def genesis_block : Block := Block.make 0 0 [] (.str "0") "Genesis"

/-! Uniqueness of sorted permutations with pairwise distinct timestamps. -/

theorem eq_of_perm_of_sorted_of_nodup_ts :
    ∀ (l₁ l₂ : List Tx), l₁.Perm l₂ → l₁.Sorted txLe → l₂.Sorted txLe →
      (l₁.map Tx.timestamp).Nodup → l₁ = l₂ := by
  intro l₁
  induction l₁ with
  | nil =>
    intro l₂ hp _ _ _
    exact (List.Perm.eq_nil hp.symm).symm
  | cons a t₁ ih =>
    intro l₂ hp hs₁ hs₂ hnd
    cases l₂ with
    | nil => exact absurd (List.Perm.eq_nil hp) (List.cons_ne_nil a t₁)
    | cons b t₂ =>
      have hab : a = b := by
        by_contra hne
        have ha2 : a ∈ b :: t₂ := hp.mem_iff.mp (List.mem_cons_self a t₁)
        have hb1 : b ∈ a :: t₁ := hp.mem_iff.mpr (List.mem_cons_self b t₂)
        have hat2 : a ∈ t₂ := by
          rcases List.mem_cons.mp ha2 with h | h
          · exact absurd h hne
          · exact h
        have hbt1 : b ∈ t₁ := by
          rcases List.mem_cons.mp hb1 with h | h
          · exact absurd h.symm hne
          · exact h
        have h1 : txLe b a := (List.pairwise_cons.mp hs₂).1 a hat2
        have h2 : txLe a b := (List.pairwise_cons.mp hs₁).1 b hbt1
        have hts : a.timestamp = b.timestamp := le_antisymm h2 h1
        have hmem : a.timestamp ∈ t₁.map Tx.timestamp := by
          rw [hts]; exact List.mem_map_of_mem Tx.timestamp hbt1
        exact (List.nodup_cons.mp hnd).1 hmem
      subst hab
      have htail : t₁ = t₂ :=
        ih t₂ (List.Perm.cons_inv hp) (List.sorted_cons.mp hs₁).2
          (List.sorted_cons.mp hs₂).2 (List.nodup_cons.mp hnd).2
      rw [htail]

theorem sortTxs_sorted (l : List Tx) : (sortTxs l).Sorted txLe :=
  List.sorted_insertionSort txLe l

theorem sortTxs_perm (l : List Tx) : (sortTxs l).Perm l :=
  List.perm_insertionSort txLe l

theorem sortTxs_eq_of_perm (l₁ l₂ : List Tx) (hperm : l₁.Perm l₂)
    (hnd : (l₁.map Tx.timestamp).Nodup) : sortTxs l₁ = sortTxs l₂ := by
  apply eq_of_perm_of_sorted_of_nodup_ts
  · exact ((sortTxs_perm l₁).trans hperm).trans (sortTxs_perm l₂).symm
  · exact sortTxs_sorted l₁
  · exact sortTxs_sorted l₂
  · exact (List.Perm.nodup_iff ((sortTxs_perm l₁).map Tx.timestamp)).mpr hnd

/-- C1, amended: two Blocks built from the same
`(index, timestamp, transactions, previous_hash, validator)` have equal hashes
regardless of the order in which the transactions appear in the input list,
provided the transactions carry pairwise distinct timestamps (the source
sorts by timestamp only, so equal-timestamp reorderings can change the hash). -/
theorem c1_hash_determinism_distinct_timestamps
    (i ts : Int) (p : HashVal) (v : String) (l₁ l₂ : List Tx)
    (hperm : l₁.Perm l₂) (hnd : (l₁.map Tx.timestamp).Nodup) :
    (Block.make i ts l₁ p v).hash = (Block.make i ts l₂ p v).hash := by
  show HashVal.digest i ts (sortTxs l₁) p v = HashVal.digest i ts (sortTxs l₂) p v
  rw [sortTxs_eq_of_perm l₁ l₂ hperm hnd]

/-- Transaction with timestamp 5 used by the C1 counterexample. -/
def c1TxA : Tx := ⟨"a", "b", .int 10, "MAIN", 5, "tx1"⟩

/-- A different transaction with the same timestamp 5. -/
def c1TxB : Tx := ⟨"c", "d", .int 7, "MAIN", 5, "tx2"⟩

/-- Transaction with timestamp 3 used by the C1 witness. -/
def c1TxC : Tx := ⟨"a", "b", .int 10, "MAIN", 3, "tx1"⟩

/-- C1, counterexample: two Blocks built from the same fields but with the
two equal-timestamp transactions supplied in opposite orders get different
hashes, because the stable timestamp sort preserves the two input orders. -/
theorem c1_counterexample_equal_timestamps :
    (Block.make 1 9 [c1TxA, c1TxB] (.str "p") "v").hash ≠
      (Block.make 1 9 [c1TxB, c1TxA] (.str "p") "v").hash := by decide

/-- C1, witness: the amended theorem applied to a concrete reordering of two
transactions with distinct timestamps. -/
theorem c1_witness :
    ([c1TxC, c1TxB].Perm [c1TxB, c1TxC] ∧
        (([c1TxC, c1TxB]).map Tx.timestamp).Nodup) ∧
      (Block.make 1 9 [c1TxC, c1TxB] (.str "p") "v").hash =
        (Block.make 1 9 [c1TxB, c1TxC] (.str "p") "v").hash :=
  ⟨⟨by decide, by decide⟩,
    c1_hash_determinism_distinct_timestamps 1 9 (.str "p") "v" [c1TxC, c1TxB]
      [c1TxB, c1TxC] (by decide) (by decide)⟩

/-! Two-token balances and the mempool. -/

/-- A per-token balance map with entries for the MAIN and the SECOND token. -/
structure Balances where
  main : Int
  second : Int
deriving DecidableEq

/-- A token name is valid when it is `TOKEN_NAME` or `SECONDARY_TOKEN_NAME`. -/
def validToken (t : String) : Prop := t = TOKEN_NAME ∨ t = SECONDARY_TOKEN_NAME

instance (t : String) : Decidable (validToken t) :=
  inferInstanceAs (Decidable (_ ∨ _))

/-- Add `n` to the entry of `token`. -/
def Balances.add (b : Balances) (token : String) (n : Int) : Balances :=
  if token = TOKEN_NAME then { b with main := b.main + n }
  else if token = SECONDARY_TOKEN_NAME then { b with second := b.second + n }
  else b

/-- Subtract `n` from the entry of `token`. -/
def Balances.sub (b : Balances) (token : String) (n : Int) : Balances :=
  if token = TOKEN_NAME then { b with main := b.main - n }
  else if token = SECONDARY_TOKEN_NAME then { b with second := b.second - n }
  else b

/-- Look a token's entry up, as `balance(sender)[token]` does. -/
def Balances.ofToken (b : Balances) (token : String) : Int :=
  if token = TOKEN_NAME then b.main else b.second

/-- Modelled from the spec: the reader step of the two-token
`Blockchain.get_balance` (the staged `blockchain_node.py` is the older
single-token duplicate of the node; the staged tests exercise the two-token
reader).  Per spec §4.2: a transaction with a non-integer or non-positive
amount or an unknown token type is skipped; otherwise the amount is added to
the recipient's entry for the transaction's token and subtracted from the
sender's. -/
def applyTxToBalances (address : String) (bal : Balances) (tx : Tx) : Balances :=
  match tx.amount with
  | .nonInt _ => bal
  | .int n =>
    if 0 < n ∧ validToken tx.token_type then
      let bal1 := if tx.recipient = address then bal.add tx.token_type n else bal
      if tx.sender = address then bal1.sub tx.token_type n else bal1
    else bal

/-- Modelled from the spec: the two-token `Blockchain.get_balance`, folding
the committed chain from block 0 upward (spec §4.2). -/
def get_balance (chain : List Block) (address : String) : Balances :=
  chain.foldl (fun bal b => b.transactions.foldl (applyTxToBalances address) bal) ⟨0, 0⟩

/-- The node state the claims touch: the committed chain and the mempool
(`pending_transactions`). -/
structure Blockchain where
  chain : List Block
  pending_transactions : List Tx
deriving DecidableEq

/-- `self.chain[-1]` (`last_block`); the chain of a live node is never empty. -/
def last_block (chain : List Block) : Block := chain.getLastD genesis_block

/-- `get_balance` as the node method: it reads only the committed chain. -/
def node_balance (s : Blockchain) (address : String) : Balances :=
  get_balance s.chain address

/-- Modelled from the spec: the two-token `Blockchain.add_transaction`
(spec §4.3).  Reject when the amount is not a positive integer, when the
token is unknown, or when a non-faucet sender's committed balance in that
token is short; otherwise stamp the fresh id and the current wall-clock,
append to the mempool and return `last_block.index + 1`. -/
def add_transaction (s : Blockchain) (sender recipient : String) (amount : Amount)
    (token : String) (now : Int) (freshId : String) : Option Int × Blockchain :=
  match amount with
  | .nonInt _ => ((none : Option Int), s)
  | .int n =>
    if n ≤ 0 then (none, s)
    else if ¬ validToken token then (none, s)
    else if sender ≠ FAUCET_ADDRESS ∧ (get_balance s.chain sender).ofToken token < n then
      (none, s)
    else
      (some ((last_block s.chain).index + 1),
       { s with pending_transactions :=
           s.pending_transactions ++ [⟨sender, recipient, .int n, token, now, freshId⟩] })

/-! C3: characterization of the balance reader. -/

/-- Per-transaction balance contribution for one address and one token, as
the spec sentence of C3 states it: a transaction with a non-integer or
non-positive amount or an unknown token type contributes nothing; otherwise
it adds its amount for the recipient and subtracts it for the sender. -/
def txDelta (address token : String) (tx : Tx) : Int :=
  match tx.amount with
  | .nonInt _ => 0
  | .int n =>
    if 0 < n ∧ validToken tx.token_type ∧ tx.token_type = token then
      (if tx.recipient = address then n else 0) - (if tx.sender = address then n else 0)
    else 0

theorem applyTx_main (address : String) (bal : Balances) (tx : Tx) :
    (applyTxToBalances address bal tx).main = bal.main + txDelta address TOKEN_NAME tx := by
  rcases tx with ⟨snd, rcp, amt, tok, ts, id⟩
  cases amt with
  | nonInt v => simp [applyTxToBalances, txDelta]
  | int n =>
    simp only [applyTxToBalances, txDelta, Balances.add, Balances.sub]
    have hMS : TOKEN_NAME ≠ SECONDARY_TOKEN_NAME := by decide
    by_cases hv : validToken tok
    · rcases hv with hM | hS
      · subst hM
        simp [validToken, hMS.symm]
        split_ifs <;> simp_all <;> omega
      · subst hS
        simp [validToken, hMS]
        split_ifs <;> simp_all
    · simp [hv]

theorem applyTx_second (address : String) (bal : Balances) (tx : Tx) :
    (applyTxToBalances address bal tx).second =
      bal.second + txDelta address SECONDARY_TOKEN_NAME tx := by
  rcases tx with ⟨snd, rcp, amt, tok, ts, id⟩
  cases amt with
  | nonInt v => simp [applyTxToBalances, txDelta]
  | int n =>
    simp only [applyTxToBalances, txDelta, Balances.add, Balances.sub]
    have hMS : TOKEN_NAME ≠ SECONDARY_TOKEN_NAME := by decide
    by_cases hv : validToken tok
    · rcases hv with hM | hS
      · subst hM
        simp [validToken, hMS.symm]
        split_ifs <;> simp_all
      · subst hS
        simp [validToken, hMS]
        split_ifs <;> simp_all <;> omega
    · simp [hv]

theorem foldl_applyTx (address : String) (l : List Tx) (bal : Balances) :
    l.foldl (applyTxToBalances address) bal =
      ⟨bal.main + (l.map (txDelta address TOKEN_NAME)).sum,
       bal.second + (l.map (txDelta address SECONDARY_TOKEN_NAME)).sum⟩ := by
  induction l generalizing bal with
  | nil => simp
  | cons tx l ih =>
    simp only [List.foldl_cons, List.map_cons, List.sum_cons, ih]
    rw [applyTx_main, applyTx_second]
    congr 1 <;> omega

theorem get_balance_foldl (chain : List Block) (address : String) (bal : Balances) :
    chain.foldl (fun b blk => blk.transactions.foldl (applyTxToBalances address) b) bal =
      ⟨bal.main + (chain.map (fun b => ((b.transactions.map (txDelta address TOKEN_NAME)).sum))).sum,
       bal.second +
         (chain.map (fun b => ((b.transactions.map (txDelta address SECONDARY_TOKEN_NAME)).sum))).sum⟩ := by
  induction chain generalizing bal with
  | nil => simp
  | cons blk chain ih =>
    rw [List.foldl_cons, foldl_applyTx, ih]
    simp only [List.map_cons, List.sum_cons]
    congr 1 <;> dsimp <;> omega

/-- C3: for every address and every chain, the balance reader returns the
per-token map with entries for both tokens, each computed by summing over the
committed chain from block 0 upward the per-transaction contribution of every
contained transaction (invalid transactions contribute nothing); the mempool
is never consulted (the state's `pending_transactions` is universally
quantified and unread). -/
theorem c3_get_balance_folds_committed_chain
    (chain : List Block) (pending : List Tx) (address : String) :
    node_balance ⟨chain, pending⟩ address =
      ⟨(chain.map (fun b => ((b.transactions.map (txDelta address TOKEN_NAME)).sum))).sum,
       (chain.map (fun b => ((b.transactions.map (txDelta address SECONDARY_TOKEN_NAME)).sum))).sum⟩ := by
  show get_balance chain address = _
  rw [get_balance, get_balance_foldl]
  congr 1 <;> dsimp <;> omega

/-- C2: `add_transaction` rejects (returns no index and leaves the state,
mempool included, unchanged) exactly when the amount is not a positive
integer, or the token is unknown, or a non-faucet sender's committed balance
in that token is below the amount (the faucet `"0"` always bypasses the
balance check); on success it appends exactly the one transaction stamped
with the supplied fresh id and current wall-clock timestamp and returns
`last_block.index + 1`. -/
theorem c2_add_transaction_spec (s : Blockchain) (sender recipient : String)
    (amount : Amount) (token : String) (now : Int) (freshId : String) :
    ((add_transaction s sender recipient amount token now freshId).1 = none ↔
        (∀ n : Int, amount = .int n → n ≤ 0) ∨
        ¬ validToken token ∨
        (sender ≠ FAUCET_ADDRESS ∧ ∃ n : Int, amount = .int n ∧
          (get_balance s.chain sender).ofToken token < n)) ∧
    ((add_transaction s sender recipient amount token now freshId).1 = none →
      (add_transaction s sender recipient amount token now freshId).2 = s) ∧
    (∀ n : Int, amount = .int n →
      (add_transaction s sender recipient amount token now freshId).1 ≠ none →
        add_transaction s sender recipient amount token now freshId =
          (some ((last_block s.chain).index + 1),
           { s with pending_transactions :=
               s.pending_transactions ++ [⟨sender, recipient, .int n, token, now, freshId⟩] })) := by
  cases amount with
  | nonInt v =>
    have heq : add_transaction s sender recipient (.nonInt v) token now freshId = (none, s) := rfl
    refine ⟨?_, ?_, ?_⟩
    · rw [heq]
      constructor
      · intro _
        left
        intro n hn
        exact Amount.noConfusion hn
      · intro _; rfl
    · intro _; rw [heq]
    · intro n hn _
      exact Amount.noConfusion hn
  | int m =>
    by_cases h1 : m ≤ 0
    · have heq : add_transaction s sender recipient (.int m) token now freshId = (none, s) := by
        simp [add_transaction, if_pos h1]
      refine ⟨?_, ?_, ?_⟩
      · rw [heq]
        constructor
        · intro _
          left
          intro n hn
          injection hn with h
          omega
        · intro _; rfl
      · intro _; rw [heq]
      · intro n hn hne
        rw [heq] at hne
        exact absurd rfl hne
    · by_cases h2 : validToken token
      · by_cases h3 : sender ≠ FAUCET_ADDRESS ∧ (get_balance s.chain sender).ofToken token < m
        · have heq : add_transaction s sender recipient (.int m) token now freshId = (none, s) := by
            simp [add_transaction, if_neg h1, if_neg (not_not_intro h2), if_pos h3]
          refine ⟨?_, ?_, ?_⟩
          · rw [heq]
            constructor
            · intro _
              right; right
              exact ⟨h3.1, m, rfl, h3.2⟩
            · intro _; rfl
          · intro _; rw [heq]
          · intro n hn hne
            rw [heq] at hne
            exact absurd rfl hne
        · have hsome : add_transaction s sender recipient (.int m) token now freshId =
              (some ((last_block s.chain).index + 1),
               { s with pending_transactions :=
                   s.pending_transactions ++ [⟨sender, recipient, .int m, token, now, freshId⟩] }) := by
            simp [add_transaction, if_neg h1, if_neg (not_not_intro h2), if_neg h3]
          refine ⟨?_, ?_, ?_⟩
          · rw [hsome]
            constructor
            · intro h
              exact Option.noConfusion h
            · intro hbad
              exfalso
              rcases hbad with hb | hb | hb
              · exact h1 (hb m rfl)
              · exact hb h2
              · rcases hb with ⟨hs, n, hn, hlt⟩
                injection hn with h
                subst h
                exact h3 ⟨hs, hlt⟩
          · rw [hsome]
            intro h
            exact Option.noConfusion h
          · intro n hn _
            cases hn
            exact hsome
      · have heq : add_transaction s sender recipient (.int m) token now freshId = (none, s) := by
          simp [add_transaction, if_neg h1, if_pos h2]
        refine ⟨?_, ?_, ?_⟩
        · rw [heq]
          constructor
          · intro _
            right; left
            exact h2
          · intro _; rfl
        · intro _; rw [heq]
        · intro n hn hne
          rw [heq] at hne
          exact absurd rfl hne

/-! Chain validation (`is_chain_valid`) and its characterization (C5). -/

/-- Per-transaction check of the chain validator: `amount` must be a Python
`int` with positive value and (two-token validator, exercised by the staged
tests; modelled from the spec §4.6) the `token_type` must be known. -/
def txValidB (tx : Tx) : Bool :=
  (match tx.amount with | .int n => decide (0 < n) | .nonInt _ => false) &&
    decide (validToken tx.token_type)

/-- The loop of `is_chain_valid` over the blocks after the genesis block,
carrying the expected index and the previous block: index must match,
`previous_hash` must equal the previous block's stored hash, the stored hash
must recompute, and every contained transaction must pass `txValidB`. -/
def chainRestValid : Block → Int → List Block → Bool
  | _, _, [] => true
  | prev, i, b :: rest =>
    decide (b.index = i) && decide (b.previous_hash = prev.hash) &&
      decide (b.hash = b.calculate_hash) && b.transactions.all txValidB &&
      chainRestValid b (i + 1) rest

/-- `Blockchain.is_chain_valid` on a candidate chain: reject the empty chain,
check the genesis block (index 0, previous hash `"0"`, recomputed hash), then
run the loop from index 1. -/
def is_chain_valid (c : List Block) : Bool :=
  match c with
  | [] => false
  | g :: rest =>
    decide (g.index = 0) && decide (g.previous_hash = .str "0") &&
      decide (g.hash = g.calculate_hash) && chainRestValid g 1 rest

/-- Claim-side validity of one transaction: positive integer amount and a
valid token type. -/
def TxClaimValid (tx : Tx) : Prop :=
  (∃ n : Int, tx.amount = .int n ∧ 0 < n) ∧ validToken tx.token_type

theorem txValidB_iff (tx : Tx) : txValidB tx = true ↔ TxClaimValid tx := by
  rcases tx with ⟨snd, rcp, amt, tok, ts, id⟩
  cases amt with
  | nonInt v => simp [txValidB, TxClaimValid]
  | int n =>
    simp only [txValidB, TxClaimValid, Bool.and_eq_true, decide_eq_true_eq]
    constructor
    · rintro ⟨hn, hv⟩
      exact ⟨⟨n, rfl, hn⟩, hv⟩
    · rintro ⟨⟨m, hm, hmpos⟩, hv⟩
      injection hm with h
      exact ⟨by omega, hv⟩

/-- Claim-side statement of chain validity, indexed as the spec sentences of
C5 state it (`i ≥ 1` is written `i + 1`). -/
def ChainValidSpec (c : List Block) : Prop :=
  c ≠ [] ∧
  (∀ h0 : 0 < c.length,
      (c.get ⟨0, h0⟩).index = 0 ∧ (c.get ⟨0, h0⟩).previous_hash = .str "0" ∧
      (c.get ⟨0, h0⟩).hash = (c.get ⟨0, h0⟩).calculate_hash) ∧
  (∀ i : Nat, ∀ h : i + 1 < c.length,
      (c.get ⟨i + 1, h⟩).index = (i : Int) + 1 ∧
      (c.get ⟨i + 1, h⟩).previous_hash = (c.get ⟨i, by omega⟩).hash ∧
      (c.get ⟨i + 1, h⟩).hash = (c.get ⟨i + 1, h⟩).calculate_hash ∧
      ∀ tx ∈ (c.get ⟨i + 1, h⟩).transactions, TxClaimValid tx)

theorem chainRestValid_iff :
    ∀ (rest : List Block) (prev : Block) (k : Int),
      chainRestValid prev k rest = true ↔
        ((∀ h0 : 0 < rest.length,
            (rest.get ⟨0, h0⟩).index = k ∧
            (rest.get ⟨0, h0⟩).previous_hash = prev.hash ∧
            (rest.get ⟨0, h0⟩).hash = (rest.get ⟨0, h0⟩).calculate_hash ∧
            ∀ tx ∈ (rest.get ⟨0, h0⟩).transactions, TxClaimValid tx) ∧
         ∀ i : Nat, ∀ h : i + 1 < rest.length,
            (rest.get ⟨i + 1, h⟩).index = k + (i : Int) + 1 ∧
            (rest.get ⟨i + 1, h⟩).previous_hash = (rest.get ⟨i, by omega⟩).hash ∧
            (rest.get ⟨i + 1, h⟩).hash = (rest.get ⟨i + 1, h⟩).calculate_hash ∧
            ∀ tx ∈ (rest.get ⟨i + 1, h⟩).transactions, TxClaimValid tx) := by
  intro rest
  induction rest with
  | nil =>
    intro prev k
    constructor
    · intro _
      constructor
      · intro h0; exact absurd h0 (by simp)
      · intro i h; exact absurd h (by simp)
    · intro _; rfl
  | cons b rest ih =>
    intro prev k
    have hhead : chainRestValid prev k (b :: rest) = true ↔
        (b.index = k ∧ b.previous_hash = prev.hash ∧ b.hash = b.calculate_hash ∧
          ∀ tx ∈ b.transactions, TxClaimValid tx) ∧
        chainRestValid b (k + 1) rest = true := by
      simp only [chainRestValid, Bool.and_eq_true, decide_eq_true_eq, List.all_eq_true]
      constructor
      · rintro ⟨⟨⟨⟨hi, hp⟩, hh⟩, htx⟩, hrest⟩
        exact ⟨⟨hi, hp, hh, fun tx htxm => (txValidB_iff tx).mp (htx tx htxm)⟩, hrest⟩
      · rintro ⟨⟨hi, hp, hh, htx⟩, hrest⟩
        exact ⟨⟨⟨⟨hi, hp⟩, hh⟩, fun tx htxm => (txValidB_iff tx).mpr (htx tx htxm)⟩, hrest⟩
    rw [hhead, ih b (k + 1)]
    constructor
    · rintro ⟨⟨hi, hp, hh, htx⟩, hh0, hstep⟩
      constructor
      · intro h0
        simpa using ⟨hi, hp, hh, htx⟩
      · intro i h
        cases i with
        | zero =>
          have h0 : 0 < rest.length := by simpa using h
          have := hh0 h0
          simpa using this
        | succ j =>
          have hj : j + 1 < rest.length := by simpa using h
          have := hstep j hj
          simp only [List.get_cons_succ]
          refine ⟨?_, this.2.1, this.2.2.1, this.2.2.2⟩
          have := this.1
          push_cast
          push_cast at this
          omega
    · rintro ⟨hhd, hstep⟩
      refine ⟨?_, ?_, ?_⟩
      · have := hhd (by simp)
        simpa using this
      · intro h0
        have h1 : 0 + 1 < (b :: rest).length := by simpa using h0
        have := hstep 0 h1
        simpa using this
      · intro i h
        have h1 : (i + 1) + 1 < (b :: rest).length := by simpa using h
        have := hstep (i + 1) h1
        simp only [List.get_cons_succ] at this
        refine ⟨?_, this.2.1, this.2.2.1, this.2.2.2⟩
        have := this.1
        push_cast
        push_cast at this
        omega

/-- C5: `is_chain_valid` accepts a candidate chain exactly when it is
non-empty, its first block has index 0, previous hash `"0"` and a stored hash
equal to its recomputed hash, and every later block has the right index, links
to the previous block's hash, recomputes its stored hash, and contains only
transactions with a positive integer amount and a valid token type; in
particular a chain containing a transaction with an invalid `token_type` in a
non-genesis block is rejected. -/
theorem c5_is_chain_valid_characterization (c : List Block) :
    (is_chain_valid c = true ↔ ChainValidSpec c) ∧
    (∀ (i : Nat) (h : i + 1 < c.length) (tx : Tx),
        tx ∈ (c.get ⟨i + 1, h⟩).transactions → ¬ validToken tx.token_type →
          is_chain_valid c = false) := by
  have hmain : is_chain_valid c = true ↔ ChainValidSpec c := by
    cases c with
    | nil =>
      simp only [is_chain_valid, ChainValidSpec]
      constructor
      · intro h; exact Bool.noConfusion h
      · rintro ⟨hne, _⟩; exact absurd rfl hne
    | cons g rest =>
      simp only [is_chain_valid, Bool.and_eq_true, decide_eq_true_eq,
        chainRestValid_iff rest g 1, ChainValidSpec]
      constructor
      · rintro ⟨⟨⟨hgi, hgp⟩, hgh⟩, hh0, hstep⟩
        refine ⟨by simp, ?_, ?_⟩
        · intro _
          simpa using ⟨hgi, hgp, hgh⟩
        · intro i h
          cases i with
          | zero =>
            have h0 : 0 < rest.length := by simpa using h
            have := hh0 h0
            simpa using this
          | succ j =>
            have hj : j + 1 < rest.length := by simpa using h
            have := hstep j hj
            simp only [List.get_cons_succ]
            refine ⟨?_, this.2.1, this.2.2.1, this.2.2.2⟩
            have := this.1
            push_cast at this ⊢
            omega
      · rintro ⟨_, hg, hstep⟩
        have hg0 := hg (by simp)
        simp only [List.get_cons_zero] at hg0
        refine ⟨⟨⟨hg0.1, hg0.2.1⟩, hg0.2.2⟩, ?_, ?_⟩
        · intro h0
          have h1 : 0 + 1 < (g :: rest).length := by simpa using h0
          have := hstep 0 h1
          simpa using this
        · intro i h
          have h1 : (i + 1) + 1 < (g :: rest).length := by simpa using h
          have := hstep (i + 1) h1
          simp only [List.get_cons_succ] at this
          refine ⟨?_, this.2.1, this.2.2.1, this.2.2.2⟩
          have := this.1
          push_cast at this ⊢
          omega
  refine ⟨hmain, ?_⟩
  intro i h tx htxm hbad
  cases hvalid : is_chain_valid c with
  | false => rfl
  | true =>
    have hspec := hmain.mp hvalid
    have := (hspec.2.2 i h).2.2.2 tx htxm
    exact absurd this.2 hbad

/-! Block production, the receive pipeline, and reconciliation. -/

/-- `Blockchain.create_new_block`: a new block with index `last.index + 1`,
the current timestamp, the pending transactions sorted by timestamp,
`previous_hash = last.hash` and a computed hash; the block is appended and
the mempool cleared. -/
def create_new_block (s : Blockchain) (validator : String) (now : Int) :
    Block × Blockchain :=
  let previous := last_block s.chain
  let b := Block.make (previous.index + 1) now (sortTxs s.pending_transactions)
    previous.hash validator
  (b, { chain := s.chain ++ [b], pending_transactions := [] })

/-- The mempool retention predicate of the `/receive_block` handler, exactly
as coded: keep a pending transaction when (its id is truthy and not among the
block's transaction ids) OR (its canonical content hash is not among the
block transactions' content hashes).  The content hash of a fixed-schema dict
is injective, so content-hash membership is membership of the transaction
itself.  (The source's own comment says AND.) -/
def keepPending (b : Block) (tx : Tx) : Bool :=
  let ids := (b.transactions.filter (fun t => decide (t.transaction_id ≠ ""))).map
    Tx.transaction_id
  (decide (tx.transaction_id ≠ "") && !(ids.contains tx.transaction_id)) ||
    !(b.transactions.contains tx)

/-- The `/receive_block` handler: reject a non-sequential index, a previous
hash that does not match the local last block, or a stored hash that does not
recompute; otherwise append the block and filter the mempool with
`keepPending`. -/
def receive_block (s : Blockchain) (b : Block) : Bool × Blockchain :=
  let last := last_block s.chain
  if b.index ≠ last.index + 1 then (false, s)
  else if b.previous_hash ≠ last.hash then (false, s)
  else if b.hash ≠ b.calculate_hash then (false, s)
  else (true, { chain := s.chain ++ [b],
                pending_transactions := s.pending_transactions.filter (keepPending b) })

/-- One successfully parsed peer reply to `GET /chain`: the reported `length`
field and the reported chain (the two need not agree). -/
structure PeerResponse where
  length : Int
  chain : List Block
deriving DecidableEq

/-- One iteration of the `resolve_conflicts` survey: adopt the reply as the
candidate when its reported length strictly exceeds the running maximum and
the reported chain validates. -/
def resolve_step (acc : Int × Option (List Block)) (r : PeerResponse) :
    Int × Option (List Block) :=
  if acc.1 < r.length ∧ is_chain_valid r.chain = true then (r.length, some r.chain)
  else acc

/-- `Blockchain.resolve_conflicts` over the successfully fetched peer replies
(timeouts and malformed replies are skipped by the source and so simply do
not appear in the list): survey all peers, then, if a candidate was adopted,
replace the chain wholesale and clear the mempool. -/
def resolve_conflicts (s : Blockchain) (responses : List PeerResponse) :
    Bool × Blockchain :=
  match (responses.foldl resolve_step ((s.chain.length : Int), none)).2 with
  | some c => (true, { chain := c, pending_transactions := [] })
  | none => (false, s)

/-- Node states reachable from the fresh genesis-only state by transaction
admission, local block production, the receive pipeline, and reconciliation,
with all oracle inputs (amounts, tokens, clock readings, fresh ids, incoming
blocks, peer replies) arbitrary. -/
inductive Reachable : Blockchain → Prop where
  | genesis : Reachable ⟨[genesis_block], []⟩
  | add_tx {s : Blockchain} (sender recipient : String) (amount : Amount)
      (token : String) (now : Int) (freshId : String) : Reachable s →
      Reachable (add_transaction s sender recipient amount token now freshId).2
  | forge {s : Blockchain} (validator : String) (now : Int) : Reachable s →
      Reachable (create_new_block s validator now).2
  | receive {s : Blockchain} (b : Block) : Reachable s →
      Reachable (receive_block s b).2
  | resolve {s : Blockchain} (responses : List PeerResponse) : Reachable s →
      Reachable (resolve_conflicts s responses).2

/-- The chain invariant exactly as claim C4 states it (`i ≥ 1` written as
`i + 1`): index continuity, hash links, hash recomputation, and validity of
every contained transaction. -/
def ChainClaimInv (c : List Block) : Prop :=
  ∀ i : Nat, ∀ h : i + 1 < c.length,
    (c.get ⟨i + 1, h⟩).index = (i : Int) + 1 ∧
    (c.get ⟨i + 1, h⟩).previous_hash = (c.get ⟨i, by omega⟩).hash ∧
    (c.get ⟨i + 1, h⟩).hash = (c.get ⟨i + 1, h⟩).calculate_hash ∧
    ∀ tx ∈ (c.get ⟨i + 1, h⟩).transactions, TxClaimValid tx

/-- The structural part of the chain invariant: index continuity, hash links
and hash recomputation. -/
def ChainStructInv (c : List Block) : Prop :=
  ∀ i : Nat, ∀ h : i + 1 < c.length,
    (c.get ⟨i + 1, h⟩).index = (i : Int) + 1 ∧
    (c.get ⟨i + 1, h⟩).previous_hash = (c.get ⟨i, by omega⟩).hash ∧
    (c.get ⟨i + 1, h⟩).hash = (c.get ⟨i + 1, h⟩).calculate_hash

/-- Auxiliary induction invariant: the chain is non-empty, its first block
has index 0, and the structural invariant holds. -/
def ChainAuxInv (c : List Block) : Prop :=
  c ≠ [] ∧ (∀ h0 : 0 < c.length, (c.get ⟨0, h0⟩).index = 0) ∧ ChainStructInv c

/-- Pending transaction of the C6 failing input. -/
def c6PendingTx : Tx := ⟨"a", "b", .int 5, "MAIN", 1, "t1"⟩

/-- Block transaction of the C6 failing input: same `transaction_id` as
`c6PendingTx` but different content. -/
def c6BlockTx : Tx := ⟨"a", "b", .int 7, "MAIN", 1, "t1"⟩

/-- The received block of the C6 failing input (well-formed, so the pipeline
accepts it). -/
def c6Block : Block := Block.make 1 2 [c6BlockTx] genesis_block.hash "v"

/-- The local state of the C6 failing input. -/
def c6State : Blockchain := ⟨[genesis_block], [c6PendingTx]⟩

/-- C6, evaluation at the failing input: the receive pipeline accepts the
block, yet the pending transaction survives eviction although its
`transaction_id` appears among the block's transactions, because its content
differs from the block's copy and the source keeps a transaction when its id
is absent OR its content hash is absent (the source's own comment says AND). -/
theorem c6_eviction_keeps_shared_id :
    (receive_block c6State c6Block).1 = true ∧
    c6PendingTx ∈ (receive_block c6State c6Block).2.pending_transactions ∧
    c6PendingTx.transaction_id ∈ c6Block.transactions.map Tx.transaction_id := by
  decide

/-! List access helpers used by the invariant proofs. -/

theorem get_append_left (l₁ l₂ : List Block) (i : Nat) (h : i < l₁.length)
    (h2 : i < (l₁ ++ l₂).length) : (l₁ ++ l₂).get ⟨i, h2⟩ = l₁.get ⟨i, h⟩ := by
  induction l₁ generalizing i with
  | nil => exact absurd h (by simp)
  | cons a t ih =>
    cases i with
    | zero => rfl
    | succ j =>
      simp only [List.cons_append, List.get_cons_succ]
      exact ih j (by simpa using h) (by simpa using h2)

theorem get_append_last (l : List Block) (b : Block)
    (h : l.length < (l ++ [b]).length) : (l ++ [b]).get ⟨l.length, h⟩ = b := by
  induction l with
  | nil => rfl
  | cons a t ih =>
    simp only [List.cons_append, List.length_cons, List.get_cons_succ]
    exact ih (by simpa using h)

theorem last_block_eq_get (c : List Block) (hc : 0 < c.length) :
    last_block c = c.get ⟨c.length - 1, by omega⟩ := by
  induction c with
  | nil => exact absurd hc (by simp)
  | cons a t ih =>
    cases t with
    | nil => rfl
    | cons b t2 =>
      have hstep : last_block (a :: b :: t2) = last_block (b :: t2) := by
        simp [last_block, List.getLastD]
      rw [hstep, ih (by simp)]
      have hlen : (a :: b :: t2).length - 1 = ((b :: t2).length - 1) + 1 := by
        simp
      simp only [List.length_cons]
      rfl

theorem get_of_eq_idx (c : List Block) (i j : Nat) (hi : i < c.length)
    (hj : j < c.length) (hij : i = j) : c.get ⟨i, hi⟩ = c.get ⟨j, hj⟩ := by
  cases hij
  rfl

theorem last_block_index_of_aux (c : List Block) (haux : ChainAuxInv c) :
    (last_block c).index = (c.length : Int) - 1 := by
  rcases haux with ⟨hne, h0, hstruct⟩
  have hc : 0 < c.length := List.length_pos.mpr hne
  rw [last_block_eq_get c hc]
  rcases Nat.lt_or_ge c.length 2 with h1 | h1
  · rw [get_of_eq_idx c (c.length - 1) 0 (by omega) hc (by omega), h0 hc]
    have hl1 : c.length = 1 := by omega
    rw [hl1]
    norm_num
  · have h2 : (c.length - 2) + 1 < c.length := by omega
    rw [get_of_eq_idx c (c.length - 1) ((c.length - 2) + 1) (by omega) h2 (by omega),
      (hstruct (c.length - 2) h2).1]
    omega

/-- Appending a block whose index, previous hash and hash are coherent with
the current last block preserves the auxiliary chain invariant. -/
theorem chainAuxInv_append (c : List Block) (b : Block) (haux : ChainAuxInv c)
    (hidx : b.index = (last_block c).index + 1)
    (hprev : b.previous_hash = (last_block c).hash)
    (hhash : b.hash = b.calculate_hash) : ChainAuxInv (c ++ [b]) := by
  rcases haux with ⟨hne, h0, hstruct⟩
  have hc : 0 < c.length := List.length_pos.mpr hne
  refine ⟨by simp, ?_, ?_⟩
  · intro h0'
    rw [get_append_left c [b] 0 hc h0']
    exact h0 hc
  · intro i h
    have hlen : (c ++ [b]).length = c.length + 1 := by simp
    by_cases hi : i + 1 < c.length
    · have hi0 : i < c.length := by omega
      rw [get_append_left c [b] (i + 1) hi h, get_append_left c [b] i hi0 (by omega)]
      exact hstruct i hi
    · have hieq : i + 1 = c.length := by omega
      have hi0 : i < c.length := by omega
      have hgetb : (c ++ [b]).get ⟨i + 1, h⟩ = b := by
        rw [show (⟨i + 1, h⟩ : Fin (c ++ [b]).length) = ⟨c.length, by omega⟩ by
          exact Fin.ext hieq]
        exact get_append_last c b (by omega)
      have hgetlast : (c ++ [b]).get ⟨i, by omega⟩ = last_block c := by
        rw [get_append_left c [b] i hi0 (by omega), last_block_eq_get c hc]
        exact get_of_eq_idx c i (c.length - 1) hi0 (by omega) (by omega)
      refine ⟨?_, ?_, ?_⟩
      · rw [hgetb, hidx, last_block_index_of_aux c ⟨hne, h0, hstruct⟩]
        omega
      · rw [hgetb, hgetlast]
        exact hprev
      · rw [hgetb]
        exact hhash

/-! The reconciliation survey's fold invariant, shared by C4 and C7. -/

theorem resolve_foldl_spec :
    ∀ (rs : List PeerResponse) (m : Int) (cand : Option (List Block)),
      m ≤ (rs.foldl resolve_step (m, cand)).1 ∧
      (((rs.foldl resolve_step (m, cand)).1 = m ∧
          (rs.foldl resolve_step (m, cand)).2 = cand) ∨
        ∃ r ∈ rs, (rs.foldl resolve_step (m, cand)).2 = some r.chain ∧
          is_chain_valid r.chain = true ∧
          (rs.foldl resolve_step (m, cand)).1 = r.length ∧ m < r.length) := by
  intro rs
  induction rs with
  | nil =>
    intro m cand
    exact ⟨le_refl m, Or.inl ⟨rfl, rfl⟩⟩
  | cons r rs ih =>
    intro m cand
    by_cases hc : m < r.length ∧ is_chain_valid r.chain = true
    · have hstep : resolve_step (m, cand) r = (r.length, some r.chain) := by
        simp [resolve_step, hc]
      rw [List.foldl_cons, hstep]
      rcases ih r.length (some r.chain) with ⟨hle, hcase⟩
      refine ⟨le_trans (le_of_lt hc.1) hle, ?_⟩
      rcases hcase with ⟨h1, h2⟩ | ⟨r2, hr2, h2, h3, h4, h5⟩
      · exact Or.inr ⟨r, List.mem_cons_self r rs, h2, hc.2, h1, hc.1⟩
      · exact Or.inr ⟨r2, List.mem_cons_of_mem r hr2, h2, h3, h4, lt_trans hc.1 h5⟩
    · have hstep : resolve_step (m, cand) r = (m, cand) := by
        simp only [resolve_step, if_neg hc]
      rw [List.foldl_cons, hstep]
      rcases ih m cand with ⟨hle, hcase⟩
      refine ⟨hle, ?_⟩
      rcases hcase with h | ⟨r2, hr2, h2, h3, h4, h5⟩
      · exact Or.inl h
      · exact Or.inr ⟨r2, List.mem_cons_of_mem r hr2, h2, h3, h4, h5⟩

theorem chainValidSpec_aux (c : List Block) (hv : ChainValidSpec c) :
    ChainAuxInv c := by
  rcases hv with ⟨hne, hg, hstep⟩
  refine ⟨hne, ?_, ?_⟩
  · intro h0
    exact (hg h0).1
  · intro i h
    exact ⟨(hstep i h).1, (hstep i h).2.1, (hstep i h).2.2.1⟩

theorem add_transaction_chain (s : Blockchain) (sender recipient : String)
    (amount : Amount) (token : String) (now : Int) (freshId : String) :
    (add_transaction s sender recipient amount token now freshId).2.chain = s.chain := by
  cases amount with
  | nonInt v => rfl
  | int n =>
    simp only [add_transaction]
    split_ifs <;> rfl

theorem reachable_aux {s : Blockchain} (hs : Reachable s) : ChainAuxInv s.chain := by
  induction hs with
  | genesis =>
    refine ⟨by simp, ?_, ?_⟩
    · intro h0; rfl
    · intro i h
      exact absurd h (by simp)
  | add_tx sender recipient amount token now freshId _ ih =>
    rw [add_transaction_chain]
    exact ih
  | forge validator now _ ih =>
    exact chainAuxInv_append _ _ ih rfl rfl rfl
  | receive b _ ih =>
    rename_i s0 _
    by_cases h1 : b.index ≠ (last_block s0.chain).index + 1
    · simp only [receive_block, if_pos h1]
      exact ih
    · by_cases h2 : b.previous_hash ≠ (last_block s0.chain).hash
      · simp only [receive_block, if_neg h1, if_pos h2]
        exact ih
      · by_cases h3 : b.hash ≠ b.calculate_hash
        · simp only [receive_block, if_neg h1, if_neg h2, if_pos h3]
          exact ih
        · simp only [receive_block, if_neg h1, if_neg h2, if_neg h3]
          exact chainAuxInv_append _ _ ih (not_not.mp h1) (not_not.mp h2) (not_not.mp h3)
  | resolve responses _ ih =>
    rename_i s0 _
    rcases hres : (responses.foldl resolve_step ((s0.chain.length : Int), none)).2 with
      _ | c
    · simp only [resolve_conflicts, hres]
      exact ih
    · simp only [resolve_conflicts, hres]
      rcases (resolve_foldl_spec responses (s0.chain.length : Int) none).2 with
        ⟨_, hnone⟩ | ⟨r, _, hsome, hvalid, _, _⟩
      · rw [hres] at hnone
        exact Option.noConfusion hnone
      · rw [hres] at hsome
        injection hsome with hce
        subst hce
        exact chainValidSpec_aux r.chain
          ((c5_is_chain_valid_characterization r.chain).1.mp hvalid)

/-- The invalid transaction of the C4 counterexample: amount 0. -/
def c4BadTx : Tx := ⟨"x", "y", .int 0, "MAIN", 1, "t9"⟩

/-- A structurally well-formed block carrying the invalid transaction. -/
def c4BadBlock : Block := Block.make 1 5 [c4BadTx] genesis_block.hash "v"

/-- The reachable state of the C4 counterexample: the fresh node after the
receive pipeline accepts `c4BadBlock` (the pipeline checks index, previous
hash and hash only, never transaction contents). -/
def c4BadState : Blockchain := (receive_block ⟨[genesis_block], []⟩ c4BadBlock).2

/-- C4, counterexample: a state reachable from the genesis-only state by one
`receive_block` violates the claimed chain invariant, because the accepted
block contains a transaction whose amount is not positive. -/
theorem c4_counterexample_reachable_invalid_tx :
    Reachable c4BadState ∧ ¬ ChainClaimInv c4BadState.chain := by
  constructor
  · exact Reachable.receive c4BadBlock Reachable.genesis
  · intro hinv
    have key := hinv 0 (by decide)
    have := key.2.2.2 c4BadTx (by decide)
    rcases this.1 with ⟨n, hn, hpos⟩
    have : (0 : Int) = n := by
      have : Amount.int 0 = Amount.int n := hn
      injection this
    omega

/-- C4, amended: every state reachable from the fresh genesis-only state by
`add_transaction`, `create_new_block`, `receive_block` and
`resolve_conflicts` satisfies the structural chain invariant: for all i ≥ 1,
`chain[i].index = i`, `chain[i].previous_hash = chain[i-1].hash`, and
`chain[i].hash` recomputes to the stored value.  (The per-transaction
validity clause of the original claim fails: the receive pipeline never
inspects transaction contents, see the counterexample.) -/
theorem c4_reachable_structural_invariant (s : Blockchain) (hs : Reachable s) :
    ChainStructInv s.chain :=
  (reachable_aux hs).2.2

/-- C4, witness: the amended theorem applied to a concrete reachable state,
the genesis-only state extended by one forged block. -/
theorem c4_witness :
    ChainStructInv (create_new_block ⟨[genesis_block], []⟩ "v" 7).2.chain :=
  c4_reachable_structural_invariant _ (Reachable.forge "v" 7 Reachable.genesis)

/-- Second block of the C7 counterexample's local chain. -/
def c7Block : Block := Block.make 1 3 [] genesis_block.hash "v"

/-- C7, counterexample: a peer whose reply reports length 3 but carries only
the valid genesis-only chain makes `resolve_conflicts` replace a local
2-block chain, so the chain length strictly decreases, contradicting the
claim's consequence that the length never shrinks. -/
theorem c7_counterexample_shrinking_chain :
    (resolve_conflicts ⟨[genesis_block, c7Block], []⟩
        [⟨3, [genesis_block]⟩]).2.chain.length <
      (Blockchain.mk [genesis_block, c7Block] []).chain.length := by decide

/-- C7, amended: `resolve_conflicts` replaces the local chain only by a
fetched peer chain that passes `is_chain_valid` and whose reported length
strictly exceeds the local chain length (equal reported lengths never
trigger replacement); when no replacement happens the state is unchanged;
when a replacement happens the mempool is cleared; and when every reply's
reported length equals its chain's actual length, the chain length after the
call is not smaller than before. -/
theorem c7_resolve_conflicts_spec (s : Blockchain) (responses : List PeerResponse) :
    ((resolve_conflicts s responses).1 = false →
      (resolve_conflicts s responses).2 = s) ∧
    ((resolve_conflicts s responses).1 = true →
      (resolve_conflicts s responses).2.pending_transactions = [] ∧
      ∃ r ∈ responses, (resolve_conflicts s responses).2.chain = r.chain ∧
        is_chain_valid r.chain = true ∧ (s.chain.length : Int) < r.length) ∧
    ((∀ r ∈ responses, r.length = (r.chain.length : Int)) →
      s.chain.length ≤ (resolve_conflicts s responses).2.chain.length) := by
  rcases hres : (responses.foldl resolve_step ((s.chain.length : Int), none)).2 with _ | c
  · refine ⟨?_, ?_, ?_⟩
    · intro _
      simp [resolve_conflicts, hres]
    · intro htrue
      simp [resolve_conflicts, hres] at htrue
    · intro _
      simp [resolve_conflicts, hres]
  · rcases (resolve_foldl_spec responses (s.chain.length : Int) none).2 with
      ⟨_, hnone⟩ | ⟨r, hr, hsome, hvalid, _, hgt⟩
    · rw [hres] at hnone
      exact Option.noConfusion hnone
    · rw [hres] at hsome
      injection hsome with hce
      subst hce
      refine ⟨?_, ?_, ?_⟩
      · intro hfalse
        simp [resolve_conflicts, hres] at hfalse
      · intro _
        exact ⟨by simp [resolve_conflicts, hres],
          r, hr, by simp [resolve_conflicts, hres], hvalid, hgt⟩
      · intro hhonest
        have hh := hhonest r hr
        simp only [resolve_conflicts, hres]
        have : (s.chain.length : Int) < (r.chain.length : Int) := by
          rw [← hh]
          exact hgt
        omega

/-! The limit-order-book exchange (`exchange.py`). -/

/-- The market escrow account (`self.addr = "MARKET_ADDR"`). -/
def MARKET_ADDR : String := "MARKET_ADDR"

/-- One settlement transfer emitted through
`client.create_transaction(sender, recipient, amount, token)`. -/
structure Transfer where
  sender : String
  recipient : String
  amount : Int
  token : String
deriving DecidableEq

/-- An exchange order (`Order.__slots__`-style record): `remaining` is the
escrow the market still holds for the order. -/
structure Order where
  id : String
  buy : Bool
  addr : String
  size : Int
  price : Int
  remaining : Int
deriving DecidableEq

/-- `Order.__init__`: a fresh order escrows `price * size` (buy) or `size`
(sell); the uuid4 id is an oracle input. -/
def Order.make (id addr : String) (size price : Int) (buy : Bool) : Order :=
  { id, buy, addr, size, price,
    remaining := if buy then price * size else size }

/-- One side of the book: the `SortedDict` from price key to the FIFO queue
of resting orders, as an association list in ascending key order (for bids
the key is the negated price, so the best bid is the head). -/
abbrev Book := List (Int × List Order)

/-- Insertion into a `SortedDict` book followed by `push_back` onto the
price level's FIFO queue (a fresh level is created when the key is new). -/
def bookInsert (key : Int) (o : Order) : Book → Book
  | [] => [(key, [o])]
  | (k, q) :: rest =>
    if key < k then (key, [o]) :: (k, q) :: rest
    else if key = k then (k, q ++ [o]) :: rest
    else (k, q) :: bookInsert key o rest

/-- Remove the queue node holding the order with the given id
(`LinkedList.remove` through the stored node pointer). -/
def removeById (id : String) : List Order → List Order
  | [] => []
  | o :: q => if o.id = id then q else o :: removeById id q

/-- Remove the order with the given id from the level at `key`, pruning the
level when its queue becomes empty (`del book[key]`). -/
def bookCancelAt (key : Int) (id : String) : Book → Book
  | [] => []
  | (k, q) :: rest =>
    if k = key then
      (fun q2 => if q2 = [] then rest else (k, q2) :: rest) (removeById id q)
    else (k, q) :: bookCancelAt key id rest

/-- The order stored at level `key` under the given id (the value behind the
node pointer the source keeps in `open_orders`). -/
def bookFind (key : Int) (id : String) : Book → Option Order
  | [] => none
  | (k, q) :: rest =>
    if k = key then q.find? (fun o => o.id == id) else bookFind key id rest

/-- The market state: both books, the O(1)-cancel index `open_orders`
(order id, price key, and the side of the order the stored node points to),
and the ledger of transfers emitted so far through the node client. -/
structure Market where
  bids : Book
  asks : Book
  open_orders : List (String × Int × Bool)
  ledger : List Transfer
deriving DecidableEq

/-- A trade `(bid_id, ask_id, size, price)` as returned by the matching loop. -/
abbrev Trade := String × String × Int × Int

/-- The state change and trade of one executed iteration of the
`resolve_market` while loop, given the destructured fronts of both books:
settle `qty` at the trade price, decrement sizes and escrows, emit the two
settlement transfers, refund a fully filled bid's remaining escrow, and
remove filled orders (pruning emptied levels) from the books and from
`open_orders`. -/
def matchStepBody (buy : Bool) (bk ak : Int) (bo ao : Order)
    (bq2 aq2 : List Order) (restB restA : Book)
    (oo : List (String × Int × Bool)) (lg : List Transfer) : Market × Trade :=
  let qty := min bo.size ao.size
  let tp := if buy then ao.price else bo.price
  let bo2 : Order := { bo with size := bo.size - qty, remaining := bo.remaining - qty * tp }
  let ao2 : Order := { ao with size := ao.size - qty, remaining := ao.remaining - qty }
  let bids2 : Book :=
    if bo2.size = 0 then (if bq2 = [] then restB else (bk, bq2) :: restB)
    else (bk, bo2 :: bq2) :: restB
  let asks2 : Book :=
    if ao2.size = 0 then (if aq2 = [] then restA else (ak, aq2) :: restA)
    else (ak, ao2 :: aq2) :: restA
  let oo1 := if bo2.size = 0 then oo.eraseP (fun e => e.1 == bo.id) else oo
  let oo2 := if ao2.size = 0 then oo1.eraseP (fun e => e.1 == ao.id) else oo1
  let ledger2 :=
    (lg ++
      [⟨MARKET_ADDR, bo.addr, qty, SECONDARY_TOKEN_NAME⟩,
       ⟨MARKET_ADDR, ao.addr, qty * tp, TOKEN_NAME⟩]) ++
    (if bo2.size = 0 then [⟨MARKET_ADDR, bo.addr, bo2.remaining, TOKEN_NAME⟩] else [])
  ({ bids := bids2, asks := asks2, open_orders := oo2, ledger := ledger2 },
   (bo.id, ao.id, qty, tp))

/-- The body of the `resolve_market` while loop: `none` when the loop exits
(one side empty, best bid below best ask, or -- unreachable for well-formed
books -- an empty price-level queue), otherwise the state after one trade. -/
def matchStep (buy : Bool) (m : Market) : Option (Market × Trade) :=
  match m.bids, m.asks with
  | (bk, bq) :: restB, (ak, aq) :: restA =>
    if -bk < ak then none
    else
      match bq, aq with
      | bo :: bq2, ao :: aq2 =>
        some (matchStepBody buy bk ak bo ao bq2 aq2 restB restA m.open_orders m.ledger)
      | _, _ => none
  | _, _ => none

/-- Fuel-indexed unfolding of the `resolve_market` while loop; each executed
iteration removes at least one order from the books, so the fuel
`orderCount + 1` below always suffices and the fuel never alters behaviour. -/
def matchLoop (buy : Bool) : Nat → Market → List Trade → Market × List Trade
  | 0, m, trades => (m, trades)
  | fuel + 1, m, trades =>
    match matchStep buy m with
    | none => (m, trades)
    | some (m2, t) => matchLoop buy fuel m2 (trades ++ [t])

/-- Total number of orders resting in both books. -/
def orderCount (m : Market) : Nat :=
  (m.bids.map (fun kq => kq.2.length)).sum + (m.asks.map (fun kq => kq.2.length)).sum

/-- `Market.resolve_market`: run continuous matching until one side is empty
or the best bid is below the best ask; returns the trades in execution
order. -/
def Market.resolve_market (m : Market) (buy : Bool) : Market × List Trade :=
  matchLoop buy (orderCount m + 1) m []

/-- `Market.add_order`: escrow the order's `remaining` with the market (when
the node rejects the escrow transfer -- `escrowOk = false` -- the order is not
accepted and nothing changes), insert the order at the tail of its price
level, record the cancel-index entry, and run the matching loop. -/
def Market.add_order (m : Market) (o : Order) (escrowOk : Bool) :
    Option String × Market :=
  if escrowOk = false then (none, m)
  else
    let escrow : Transfer :=
      if o.buy then ⟨o.addr, MARKET_ADDR, o.remaining, TOKEN_NAME⟩
      else ⟨o.addr, MARKET_ADDR, o.remaining, SECONDARY_TOKEN_NAME⟩
    let key := if o.buy then -o.price else o.price
    let m1 : Market :=
      { bids := if o.buy then bookInsert key o m.bids else m.bids,
        asks := if o.buy then m.asks else bookInsert key o m.asks,
        open_orders := (o.id, key, o.buy) :: m.open_orders,
        ledger := m.ledger ++ [escrow] }
    (some o.id, (m1.resolve_market o.buy).1)

/-- `Market.cancel`: pop the cancel-index record, remove the order's node
from its price level (pruning an emptied level), and refund the order's
`remaining` escrow from the market to the owner in the escrow token. -/
def Market.cancel (m : Market) (id : String) : Bool × Market :=
  match (m.open_orders.find? (fun e => e.1 == id)).map Prod.snd with
  | none => (false, m)
  | some (key, buy) =>
    let book := if buy then m.bids else m.asks
    match bookFind key id book with
    | none => (false, m)
    | some ord =>
      let open2 := m.open_orders.eraseP (fun e => e.1 == id)
      let book2 := bookCancelAt key id book
      let refund : Transfer :=
        if ord.buy then ⟨MARKET_ADDR, ord.addr, ord.remaining, TOKEN_NAME⟩
        else ⟨MARKET_ADDR, ord.addr, ord.remaining, SECONDARY_TOKEN_NAME⟩
      if buy then
        (true, { m with bids := book2, open_orders := open2,
                        ledger := m.ledger ++ [refund] })
      else
        (true, { m with asks := book2, open_orders := open2,
                        ledger := m.ledger ++ [refund] })

/-- Net ledger balance of an address in a token over a list of transfers. -/
def ledgerBalance (l : List Transfer) (addr token : String) : Int :=
  (l.map (fun t =>
    (if t.recipient = addr ∧ t.token = token then t.amount else 0) -
    (if t.sender = addr ∧ t.token = token then t.amount else 0))).sum

/-! C8: placing then cancelling an untouched order. -/

/-- The market state right after `add_order` escrows and inserts the order,
before the matching loop runs (the `m1` of the source). -/
def afterInsert (m : Market) (o : Order) : Market :=
  let escrow : Transfer :=
    if o.buy then ⟨o.addr, MARKET_ADDR, o.remaining, TOKEN_NAME⟩
    else ⟨o.addr, MARKET_ADDR, o.remaining, SECONDARY_TOKEN_NAME⟩
  let key := if o.buy then -o.price else o.price
  { bids := if o.buy then bookInsert key o m.bids else m.bids,
    asks := if o.buy then m.asks else bookInsert key o m.asks,
    open_orders := (o.id, key, o.buy) :: m.open_orders,
    ledger := m.ledger ++ [escrow] }

theorem add_order_eq (m : Market) (o : Order) :
    Market.add_order m o true =
      (some o.id, ((afterInsert m o).resolve_market o.buy).1) := rfl

/-- The books do not cross: one side is empty or the best bid price is below
the best ask price. -/
def NoCross (m : Market) : Prop :=
  match m.bids, m.asks with
  | (bk, _) :: _, (ak, _) :: _ => -bk < ak
  | _, _ => True

theorem matchStep_none_of_noCross (buy : Bool) (m : Market) (h : NoCross m) :
    matchStep buy m = none := by
  rcases hb : m.bids with _ | ⟨⟨bk, bq⟩, restB⟩
  · simp [matchStep, hb]
  · rcases ha : m.asks with _ | ⟨⟨ak, aq⟩, restA⟩
    · simp [matchStep, hb, ha]
    · have hlt : -bk < ak := by
        have := h
        rw [NoCross, hb, ha] at this
        exact this
      simp [matchStep, hb, ha, hlt]

theorem resolve_market_noop (m : Market) (buy : Bool)
    (h : matchStep buy m = none) : m.resolve_market buy = (m, []) := by
  show matchLoop buy (orderCount m + 1) m [] = (m, [])
  rw [matchLoop, h]

theorem removeById_append_self (o : Order) :
    ∀ (q : List Order), (∀ x ∈ q, x.id ≠ o.id) →
      removeById o.id (q ++ [o]) = q := by
  intro q
  induction q with
  | nil => simp [removeById]
  | cons x q ih =>
    intro hq
    have hx : x.id ≠ o.id := hq x (List.mem_cons_self x q)
    simp only [List.cons_append, removeById, if_neg hx]
    exact congrArg (fun l => x :: l) (ih (fun y hy => hq y (List.mem_cons_of_mem x hy)))

theorem find?_append_of_none {p : Order → Bool} :
    ∀ (q l : List Order), (∀ x ∈ q, p x = false) →
      (q ++ l).find? p = l.find? p := by
  intro q l
  induction q with
  | nil => intro _; rfl
  | cons x q ih =>
    intro hq
    have hx : p x = false := hq x (List.mem_cons_self x q)
    simp only [List.cons_append]
    rw [List.find?_cons_of_neg _ (by simp [hx])]
    exact ih (fun y hy => hq y (List.mem_cons_of_mem x hy))

theorem bookFind_insert (key : Int) (o : Order) :
    ∀ (book : Book), (∀ kq ∈ book, ∀ x ∈ kq.2, x.id ≠ o.id) →
      bookFind key o.id (bookInsert key o book) = some o := by
  intro book
  induction book with
  | nil =>
    intro _
    simp [bookInsert, bookFind, List.find?]
  | cons kq rest ih =>
    intro hfresh
    rcases kq with ⟨k, q⟩
    by_cases h1 : key < k
    · simp only [bookInsert, if_pos h1, bookFind, if_pos rfl]
      simp [List.find?]
    · by_cases h2 : key = k
      · subst h2
        simp only [bookInsert, if_neg h1, if_pos rfl, bookFind, if_pos rfl]
        have hq : ∀ x ∈ q, (fun o2 => o2.id == o.id) x = false := by
          intro x hx
          simp only [beq_eq_false_iff_ne, ne_eq]
          exact hfresh (key, q) (List.mem_cons_self _ rest) x hx
        rw [find?_append_of_none q [o] hq]
        simp [List.find?]
      · have hk : k ≠ key := fun he => h2 he.symm
        simp only [bookInsert, if_neg h1, if_neg h2, bookFind, if_neg hk]
        exact ih (fun kq2 hkq2 => hfresh kq2 (List.mem_cons_of_mem _ hkq2))

theorem bookCancelAt_insert (key : Int) (o : Order) :
    ∀ (book : Book), (∀ kq ∈ book, ∀ x ∈ kq.2, x.id ≠ o.id) →
      (∀ kq ∈ book, kq.2 ≠ []) →
      bookCancelAt key o.id (bookInsert key o book) = book := by
  intro book
  induction book with
  | nil =>
    intro _ _
    simp [bookInsert, bookCancelAt, removeById]
  | cons kq rest ih =>
    intro hfresh hlev
    rcases kq with ⟨k, q⟩
    by_cases h1 : key < k
    · simp only [bookInsert, if_pos h1, bookCancelAt, if_pos rfl]
      simp [removeById]
    · by_cases h2 : key = k
      · subst h2
        simp only [bookInsert, if_neg h1, if_pos rfl, bookCancelAt, if_pos rfl]
        have hq : ∀ x ∈ q, x.id ≠ o.id :=
          fun x hx => hfresh (key, q) (List.mem_cons_self _ rest) x hx
        rw [removeById_append_self o q hq]
        have hqne : q ≠ [] := hlev (key, q) (List.mem_cons_self _ rest)
        simp [hqne]
      · have hk : k ≠ key := fun he => h2 he.symm
        simp only [bookInsert, if_neg h1, if_neg h2, bookCancelAt, if_neg hk]
        rw [ih (fun kq2 hkq2 => hfresh kq2 (List.mem_cons_of_mem _ hkq2))
          (fun kq2 hkq2 => hlev kq2 (List.mem_cons_of_mem _ hkq2))]

theorem cancel_afterInsert (m : Market) (o : Order)
    (hfresh_book : ∀ kq ∈ (if o.buy then m.bids else m.asks), ∀ x ∈ kq.2, x.id ≠ o.id)
    (hlevels : ∀ kq ∈ (if o.buy then m.bids else m.asks), kq.2 ≠ []) :
    Market.cancel (afterInsert m o) o.id =
      (true, { bids := m.bids, asks := m.asks, open_orders := m.open_orders,
               ledger := (afterInsert m o).ledger ++
                 [if o.buy then (⟨MARKET_ADDR, o.addr, o.remaining, TOKEN_NAME⟩ : Transfer)
                  else ⟨MARKET_ADDR, o.addr, o.remaining, SECONDARY_TOKEN_NAME⟩] }) := by
  have hfind := bookFind_insert (if o.buy then -o.price else o.price) o
      (if o.buy then m.bids else m.asks) hfresh_book
  have hcancelb := bookCancelAt_insert (if o.buy then -o.price else o.price) o
      (if o.buy then m.bids else m.asks) hfresh_book hlevels
  cases hob : o.buy
  · rw [hob] at hfind hcancelb
    simp only [Bool.false_eq_true, if_false] at hfind hcancelb
    simp [Market.cancel, afterInsert, hob, List.find?, hfind, hcancelb, List.eraseP_cons_of_pos]
  · rw [hob] at hfind hcancelb
    simp only [if_true] at hfind hcancelb
    simp [Market.cancel, afterInsert, hob, List.find?, hfind, hcancelb, List.eraseP_cons_of_pos]

theorem ledgerBalance_append (l1 l2 : List Transfer) (addr token : String) :
    ledgerBalance (l1 ++ l2) addr token =
      ledgerBalance l1 addr token + ledgerBalance l2 addr token := by
  simp [ledgerBalance]

theorem ledgerBalance_pair (a b : String) (amt : Int) (tok addr token : String) :
    ledgerBalance [⟨a, b, amt, tok⟩, ⟨b, a, amt, tok⟩] addr token = 0 := by
  simp only [ledgerBalance, List.map_cons, List.map_nil, List.sum_cons, List.sum_nil]
  split_ifs <;> omega

/-- C8: an order accepted by `add_order` that the matching loop does not
touch (the book does not cross once it rests, and the market state is
well-formed: no resting order or cancel-index entry reuses its fresh uuid,
and no price level is empty) can be cancelled: `cancel` succeeds, emits a
refund transfer of the full escrowed amount from the market to the owner in
the escrow token, the owner's net ledger balance change over the
place-then-cancel sequence is zero in every token, and afterwards
`open_orders` does not contain the order id. -/
theorem c8_cancel_round_trip (m : Market) (o : Order)
    (hfresh_open : ∀ e ∈ m.open_orders, e.1 ≠ o.id)
    (hfresh_book : ∀ kq ∈ (if o.buy then m.bids else m.asks), ∀ x ∈ kq.2, x.id ≠ o.id)
    (hlevels : ∀ kq ∈ (if o.buy then m.bids else m.asks), kq.2 ≠ [])
    (hnc : NoCross (afterInsert m o)) :
    Market.add_order m o true = (some o.id, afterInsert m o) ∧
    (Market.cancel (afterInsert m o) o.id).1 = true ∧
    (Market.cancel (afterInsert m o) o.id).2.ledger =
      m.ledger ++
        [(if o.buy then (⟨o.addr, MARKET_ADDR, o.remaining, TOKEN_NAME⟩ : Transfer)
          else ⟨o.addr, MARKET_ADDR, o.remaining, SECONDARY_TOKEN_NAME⟩),
         (if o.buy then (⟨MARKET_ADDR, o.addr, o.remaining, TOKEN_NAME⟩ : Transfer)
          else ⟨MARKET_ADDR, o.addr, o.remaining, SECONDARY_TOKEN_NAME⟩)] ∧
    (∀ token : String,
        ledgerBalance (Market.cancel (afterInsert m o) o.id).2.ledger o.addr token =
          ledgerBalance m.ledger o.addr token) ∧
    (∀ e ∈ (Market.cancel (afterInsert m o) o.id).2.open_orders, e.1 ≠ o.id) := by
  have hcancel := cancel_afterInsert m o hfresh_book hlevels
  have hledger : (Market.cancel (afterInsert m o) o.id).2.ledger =
      m.ledger ++
        [(if o.buy then (⟨o.addr, MARKET_ADDR, o.remaining, TOKEN_NAME⟩ : Transfer)
          else ⟨o.addr, MARKET_ADDR, o.remaining, SECONDARY_TOKEN_NAME⟩),
         (if o.buy then (⟨MARKET_ADDR, o.addr, o.remaining, TOKEN_NAME⟩ : Transfer)
          else ⟨MARKET_ADDR, o.addr, o.remaining, SECONDARY_TOKEN_NAME⟩)] := by
    rw [hcancel]
    show (afterInsert m o).ledger ++ _ = _
    cases hob : o.buy <;>
      simp [afterInsert, hob, List.append_assoc]
  refine ⟨?_, ?_, hledger, ?_, ?_⟩
  · rw [add_order_eq, resolve_market_noop _ _ (matchStep_none_of_noCross o.buy _ hnc)]
  · rw [hcancel]
  · intro token
    rw [hledger]
    have hpair : ((if o.buy then (⟨o.addr, MARKET_ADDR, o.remaining, TOKEN_NAME⟩ : Transfer)
          else ⟨o.addr, MARKET_ADDR, o.remaining, SECONDARY_TOKEN_NAME⟩) ::
        [(if o.buy then (⟨MARKET_ADDR, o.addr, o.remaining, TOKEN_NAME⟩ : Transfer)
          else ⟨MARKET_ADDR, o.addr, o.remaining, SECONDARY_TOKEN_NAME⟩)]) =
        (if o.buy then
          [(⟨o.addr, MARKET_ADDR, o.remaining, TOKEN_NAME⟩ : Transfer),
           ⟨MARKET_ADDR, o.addr, o.remaining, TOKEN_NAME⟩]
         else
          [(⟨o.addr, MARKET_ADDR, o.remaining, SECONDARY_TOKEN_NAME⟩ : Transfer),
           ⟨MARKET_ADDR, o.addr, o.remaining, SECONDARY_TOKEN_NAME⟩]) := by
      cases o.buy <;> simp
    rw [ledgerBalance_append, hpair]
    cases o.buy <;>
      simp [ledgerBalance_pair]
  · rw [hcancel]
    exact hfresh_open

/-- The empty market used by the exchange witnesses. -/
def emptyMarket : Market := ⟨[], [], [], []⟩

/-- Concrete buy order used by the C8 witness. -/
def c8Order : Order := Order.make "ord1" "alice" 5 100 true

/-- C8, witness: the round-trip theorem applied to a concrete buy order
placed on an empty market. -/
theorem c8_witness :
    Market.add_order emptyMarket c8Order true = (some c8Order.id, afterInsert emptyMarket c8Order) ∧
    (Market.cancel (afterInsert emptyMarket c8Order) c8Order.id).1 = true ∧
    (∀ token : String,
        ledgerBalance (Market.cancel (afterInsert emptyMarket c8Order) c8Order.id).2.ledger
            c8Order.addr token =
          ledgerBalance emptyMarket.ledger c8Order.addr token) ∧
    (∀ e ∈ (Market.cancel (afterInsert emptyMarket c8Order) c8Order.id).2.open_orders,
        e.1 ≠ c8Order.id) :=
  have h := c8_cancel_round_trip emptyMarket c8Order (by decide) (by decide) (by decide)
    (by trivial)
  ⟨h.1, h.2.1, h.2.2.2.1, h.2.2.2.2⟩

/-! C9: the matching loop never leaves a crossed book. -/

/-- Well-formedness of one book side, as `SortedDict` plus the source's level
pruning maintain it: price keys strictly ascending and no empty level. -/
def bookWF (b : Book) : Prop :=
  (b.map Prod.fst).Pairwise (· < ·) ∧ ∀ kq ∈ b, kq.2 ≠ []

instance (b : Book) : Decidable (bookWF b) := by
  unfold bookWF
  infer_instance

/-- The books are not crossed: one side is empty, or every bid price (and in
particular the highest) is strictly below every ask price (and in particular
the lowest); bid keys are negated prices. -/
def NonCrossingAll (m : Market) : Prop :=
  m.bids = [] ∨ m.asks = [] ∨
    ∀ bk ∈ m.bids.map Prod.fst, ∀ ak ∈ m.asks.map Prod.fst, -bk < ak

instance (m : Market) : Decidable (NonCrossingAll m) := by
  unfold NonCrossingAll
  infer_instance

theorem matchStep_some_inv (buy : Bool) (m : Market) (r : Market × Trade)
    (h : matchStep buy m = some r) :
    ∃ bk bo bq2 restB ak ao aq2 restA,
      m.bids = (bk, bo :: bq2) :: restB ∧ m.asks = (ak, ao :: aq2) :: restA ∧
      ¬(-bk < ak) ∧
      r = matchStepBody buy bk ak bo ao bq2 aq2 restB restA m.open_orders m.ledger := by
  rcases hb : m.bids with _ | ⟨⟨bk, bq⟩, restB⟩
  · simp [matchStep, hb] at h
  rcases ha : m.asks with _ | ⟨⟨ak, aq⟩, restA⟩
  · simp [matchStep, hb, ha] at h
  by_cases hlt : -bk < ak
  · simp [matchStep, hb, ha, hlt] at h
  rcases hbq : bq with _ | ⟨bo, bq2⟩
  · simp [matchStep, hb, ha, hlt, hbq] at h
  rcases haq : aq with _ | ⟨ao, aq2⟩
  · simp [matchStep, hb, ha, hlt, hbq, haq] at h
  refine ⟨bk, bo, bq2, restB, ak, ao, aq2, restA, rfl, rfl, hlt, ?_⟩
  simp [matchStep, hb, ha, hbq, haq, hlt] at h
  exact h.symm

theorem matchStepBody_count (buy : Bool) (bk ak : Int) (bo ao : Order)
    (bq2 aq2 : List Order) (restB restA : Book)
    (oo : List (String × Int × Bool)) (lg : List Transfer) :
    orderCount (matchStepBody buy bk ak bo ao bq2 aq2 restB restA oo lg).1 <
      orderCount ⟨(bk, bo :: bq2) :: restB, (ak, ao :: aq2) :: restA, oo, lg⟩ := by
  simp only [matchStepBody, orderCount]
  split_ifs <;> simp <;> omega

theorem bookWF_tail (k : Int) (q : List Order) (rest : Book)
    (h : bookWF ((k, q) :: rest)) : bookWF rest := by
  rcases h with ⟨hp, hn⟩
  exact ⟨(List.pairwise_cons.mp (by simpa using hp)).2,
    fun kq hkq => hn kq (List.mem_cons_of_mem _ hkq)⟩

theorem bookWF_requeue (k : Int) (q q2 : List Order) (rest : Book)
    (h : bookWF ((k, q) :: rest)) (hne : q2 ≠ []) : bookWF ((k, q2) :: rest) := by
  rcases h with ⟨hp, hn⟩
  refine ⟨by simpa using hp, ?_⟩
  intro kq hkq
  rcases List.mem_cons.mp hkq with he | hm
  · rw [he]
    exact hne
  · exact hn kq (List.mem_cons_of_mem _ hm)

theorem matchStepBody_wf (buy : Bool) (bk ak : Int) (bo ao : Order)
    (bq2 aq2 : List Order) (restB restA : Book)
    (oo : List (String × Int × Bool)) (lg : List Transfer)
    (hwb : bookWF ((bk, bo :: bq2) :: restB))
    (hwa : bookWF ((ak, ao :: aq2) :: restA)) :
    bookWF (matchStepBody buy bk ak bo ao bq2 aq2 restB restA oo lg).1.bids ∧
      bookWF (matchStepBody buy bk ak bo ao bq2 aq2 restB restA oo lg).1.asks := by
  simp only [matchStepBody]
  constructor
  · split_ifs <;>
      first
        | exact bookWF_tail bk (bo :: bq2) restB hwb
        | (apply bookWF_requeue bk (bo :: bq2) _ restB hwb
           first
             | assumption
             | simp)
  · split_ifs <;>
      first
        | exact bookWF_tail ak (ao :: aq2) restA hwa
        | (apply bookWF_requeue ak (ao :: aq2) _ restA hwa
           first
             | assumption
             | simp)

theorem noncross_of_matchStep_none (buy : Bool) (m : Market)
    (h : matchStep buy m = none) (hwb : bookWF m.bids) (hwa : bookWF m.asks) :
    NonCrossingAll m := by
  unfold NonCrossingAll
  rcases hb : m.bids with _ | ⟨⟨bk, bq⟩, restB⟩
  · exact Or.inl rfl
  rcases ha : m.asks with _ | ⟨⟨ak, aq⟩, restA⟩
  · exact Or.inr (Or.inl rfl)
  rw [hb] at hwb
  rw [ha] at hwa
  by_cases hlt : -bk < ak
  · right; right
    intro kb hkb ka hka
    rw [List.map_cons] at hkb hka
    have hbk : bk ≤ kb := by
      rcases List.mem_cons.mp hkb with he | hm
      · omega
      · have hp := hwb.1
        rw [List.map_cons] at hp
        have := (List.pairwise_cons.mp hp).1 kb hm
        omega
    have hak : ak ≤ ka := by
      rcases List.mem_cons.mp hka with he | hm
      · omega
      · have hp := hwa.1
        rw [List.map_cons] at hp
        have := (List.pairwise_cons.mp hp).1 ka hm
        omega
    omega
  · exfalso
    rcases hbq : bq with _ | ⟨bo, bq2⟩
    · exact hwb.2 (bk, bq) (List.mem_cons_self _ _) (by rw [hbq])
    rcases haq : aq with _ | ⟨ao, aq2⟩
    · exact hwa.2 (ak, aq) (List.mem_cons_self _ _) (by rw [haq])
    simp [matchStep, hb, ha, hbq, haq, hlt] at h

theorem matchLoop_noncross :
    ∀ (fuel : Nat) (m : Market) (trades : List Trade) (buy : Bool),
      bookWF m.bids → bookWF m.asks → orderCount m < fuel →
      NonCrossingAll (matchLoop buy fuel m trades).1 := by
  intro fuel
  induction fuel with
  | zero =>
    intro m _ _ _ _ hcount
    exact absurd hcount (by omega)
  | succ fuel ih =>
    intro m trades buy hwb hwa hcount
    rcases hstep : matchStep buy m with _ | ⟨m2, t⟩
    · simp only [matchLoop, hstep]
      exact noncross_of_matchStep_none buy m hstep hwb hwa
    · simp only [matchLoop, hstep]
      obtain ⟨bk, bo, bq2, restB, ak, ao, aq2, restA, hbids, hasks, hlt, hr⟩ :=
        matchStep_some_inv buy m (m2, t) hstep
      have hm2 : m2 =
          (matchStepBody buy bk ak bo ao bq2 aq2 restB restA m.open_orders m.ledger).1 := by
        rw [← hr]
      rw [hbids] at hwb
      rw [hasks] at hwa
      have hwf := matchStepBody_wf buy bk ak bo ao bq2 aq2 restB restA
        m.open_orders m.ledger hwb hwa
      have hoc : orderCount
          (⟨(bk, bo :: bq2) :: restB, (ak, ao :: aq2) :: restA,
            m.open_orders, m.ledger⟩ : Market) = orderCount m := by
        simp [orderCount, hbids, hasks]
      have hcount2 : orderCount m2 < fuel := by
        have := matchStepBody_count buy bk ak bo ao bq2 aq2 restB restA
          m.open_orders m.ledger
        rw [hoc] at this
        rw [hm2]
        omega
      exact ih m2 (trades ++ [t]) buy (hm2 ▸ hwf.1) (hm2 ▸ hwf.2) hcount2

/-- C9: whenever the matching loop `resolve_market` returns (from any
well-formed market: strictly sorted price keys, no empty price level), either
the bid book is empty, or the ask book is empty, or every bid price -- in
particular the highest -- is strictly below every ask price -- in particular
the lowest. -/
theorem c9_resolve_market_noncrossing (m : Market) (buy : Bool)
    (hwb : bookWF m.bids) (hwa : bookWF m.asks) :
    NonCrossingAll (m.resolve_market buy).1 :=
  matchLoop_noncross (orderCount m + 1) m [] buy hwb hwa (by omega)

/-- Crossed two-order market used by the C9 witness: the bid at 101 crosses
the ask at 100, the loop trades them away, and the result is non-crossing. -/
def c9Market : Market :=
  ⟨[(-101, [Order.make "b1" "alice" 5 101 true])],
   [(100, [Order.make "a1" "bob" 5 100 false])],
   [("b1", -101, true), ("a1", 100, false)], []⟩

/-- C9, witness: the non-crossing theorem applied to the concrete crossed
market. -/
theorem c9_witness :
    (bookWF c9Market.bids ∧ bookWF c9Market.asks) ∧
      NonCrossingAll (c9Market.resolve_market true).1 :=
  ⟨⟨by decide, by decide⟩,
    c9_resolve_market_noncrossing c9Market true (by decide) (by decide)⟩

/-! C10: the refund emitted when a buy order is fully filled. -/

theorem matchStepBody_ledger_extends (buy : Bool) (bk ak : Int) (bo ao : Order)
    (bq2 aq2 : List Order) (restB restA : Book)
    (oo : List (String × Int × Bool)) (lg : List Transfer) :
    ∃ ext, (matchStepBody buy bk ak bo ao bq2 aq2 restB restA oo lg).1.ledger =
      lg ++ ext := by
  simp only [matchStepBody]
  exact ⟨_, List.append_assoc _ _ _⟩

theorem matchLoop_ledger_extends :
    ∀ (fuel : Nat) (m : Market) (trades : List Trade) (buy : Bool),
      ∃ ext, (matchLoop buy fuel m trades).1.ledger = m.ledger ++ ext := by
  intro fuel
  induction fuel with
  | zero =>
    intro m trades buy
    exact ⟨[], by simp [matchLoop]⟩
  | succ fuel ih =>
    intro m trades buy
    rcases hstep : matchStep buy m with _ | ⟨m2, t⟩
    · exact ⟨[], by simp [matchLoop, hstep]⟩
    · obtain ⟨bk, bo, bq2, restB, ak, ao, aq2, restA, hbids, hasks, hlt, hr⟩ :=
        matchStep_some_inv buy m (m2, t) hstep
      have hm2 : m2 =
          (matchStepBody buy bk ak bo ao bq2 aq2 restB restA m.open_orders m.ledger).1 := by
        rw [← hr]
      obtain ⟨ext1, hext1⟩ := matchStepBody_ledger_extends buy bk ak bo ao bq2 aq2
        restB restA m.open_orders m.ledger
      obtain ⟨ext2, hext2⟩ := ih m2 (trades ++ [t]) buy
      refine ⟨ext1 ++ ext2, ?_⟩
      simp only [matchLoop, hstep]
      rw [hext2, hm2, hext1, List.append_assoc]

/-- C10: when the matching loop's next trade fully fills the front buy order
(the books cross and the bid's size is at most the ask's), the executed step
trades the bid's full size at the resting-side price, appends to the ledger
the two settlement transfers followed by a refund transfer from the market
to the bid's owner of exactly the order's remaining escrow after the fill,
and removes the order from its price level and from `open_orders`; in
particular, when the order still carries its initial escrow
`price * size` and the trade price equals its own limit price, the refund
amount is 0; the full `resolve_market` run's ledger starts with exactly
these three transfers after the prior ledger. -/
theorem c10_full_fill_refund (buy : Bool) (m : Market) (bk ak : Int)
    (bo ao : Order) (bq2 aq2 : List Order) (restB restA : Book)
    (hbids : m.bids = (bk, bo :: bq2) :: restB)
    (hasks : m.asks = (ak, ao :: aq2) :: restA)
    (hcross : ak ≤ -bk)
    (hfill : bo.size ≤ ao.size) :
    matchStep buy m =
      some (matchStepBody buy bk ak bo ao bq2 aq2 restB restA m.open_orders m.ledger) ∧
    (matchStepBody buy bk ak bo ao bq2 aq2 restB restA m.open_orders m.ledger).2 =
      (bo.id, ao.id, bo.size, if buy then ao.price else bo.price) ∧
    (matchStepBody buy bk ak bo ao bq2 aq2 restB restA m.open_orders m.ledger).1.ledger =
      m.ledger ++
        [⟨MARKET_ADDR, bo.addr, bo.size, SECONDARY_TOKEN_NAME⟩,
         ⟨MARKET_ADDR, ao.addr, bo.size * (if buy then ao.price else bo.price), TOKEN_NAME⟩,
         ⟨MARKET_ADDR, bo.addr,
           bo.remaining - bo.size * (if buy then ao.price else bo.price), TOKEN_NAME⟩] ∧
    (matchStepBody buy bk ak bo ao bq2 aq2 restB restA m.open_orders m.ledger).1.bids =
      (if bq2 = [] then restB else (bk, bq2) :: restB) ∧
    (matchStepBody buy bk ak bo ao bq2 aq2 restB restA m.open_orders m.ledger).1.open_orders =
      (if ao.size - bo.size = 0 then
        (m.open_orders.eraseP (fun e => e.1 == bo.id)).eraseP (fun e => e.1 == ao.id)
       else m.open_orders.eraseP (fun e => e.1 == bo.id)) ∧
    (bo.remaining = bo.price * bo.size → (if buy then ao.price else bo.price) = bo.price →
      bo.remaining - bo.size * (if buy then ao.price else bo.price) = 0) ∧
    (∃ rest, ((m.resolve_market buy).1).ledger =
      m.ledger ++
        [⟨MARKET_ADDR, bo.addr, bo.size, SECONDARY_TOKEN_NAME⟩,
         ⟨MARKET_ADDR, ao.addr, bo.size * (if buy then ao.price else bo.price), TOKEN_NAME⟩,
         ⟨MARKET_ADDR, bo.addr,
           bo.remaining - bo.size * (if buy then ao.price else bo.price), TOKEN_NAME⟩] ++
        rest) := by
  have hqty : min bo.size ao.size = bo.size := min_eq_left hfill
  have hlt : ¬(-bk < ak) := not_lt.mpr hcross
  have hstep : matchStep buy m =
      some (matchStepBody buy bk ak bo ao bq2 aq2 restB restA m.open_orders m.ledger) := by
    simp [matchStep, hbids, hasks, hlt]
  have htrade : (matchStepBody buy bk ak bo ao bq2 aq2 restB restA
      m.open_orders m.ledger).2 =
      (bo.id, ao.id, bo.size, if buy then ao.price else bo.price) := by
    simp [matchStepBody, hqty]
  have hledger : (matchStepBody buy bk ak bo ao bq2 aq2 restB restA
      m.open_orders m.ledger).1.ledger =
      m.ledger ++
        [⟨MARKET_ADDR, bo.addr, bo.size, SECONDARY_TOKEN_NAME⟩,
         ⟨MARKET_ADDR, ao.addr, bo.size * (if buy then ao.price else bo.price), TOKEN_NAME⟩,
         ⟨MARKET_ADDR, bo.addr,
           bo.remaining - bo.size * (if buy then ao.price else bo.price), TOKEN_NAME⟩] := by
    simp [matchStepBody, hqty]
  refine ⟨hstep, htrade, hledger, ?_, ?_, ?_, ?_⟩
  · simp [matchStepBody, hqty]
  · simp [matchStepBody, hqty]
  · intro h1 h2
    rw [h1, h2]
    ring
  · obtain ⟨ext, hext⟩ := matchLoop_ledger_extends (orderCount m) (matchStepBody buy bk ak
      bo ao bq2 aq2 restB restA m.open_orders m.ledger).1
      ([(bo.id, ao.id, min bo.size ao.size, if buy then ao.price else bo.price)]) buy
    refine ⟨ext, ?_⟩
    show (matchLoop buy (orderCount m + 1) m []).1.ledger = _
    simp only [matchLoop, hstep]
    have hpair : (matchStepBody buy bk ak bo ao bq2 aq2 restB restA
        m.open_orders m.ledger) =
        ((matchStepBody buy bk ak bo ao bq2 aq2 restB restA m.open_orders m.ledger).1,
         (bo.id, ao.id, min bo.size ao.size, if buy then ao.price else bo.price)) := by
      rw [hqty, ← htrade]
    rw [hpair]
    show (matchLoop buy (orderCount m)
        (matchStepBody buy bk ak bo ao bq2 aq2 restB restA m.open_orders m.ledger).1
        ([] ++ [(bo.id, ao.id, min bo.size ao.size, if buy then ao.price else bo.price)])).1.ledger = _
    rw [List.nil_append, hext, hledger, List.append_assoc]

/-- Fresh buy order (limit 100, size 5, escrow 500) of the C10 witness. -/
def c10Bid : Order := Order.make "b1" "alice" 5 100 true

/-- Resting-side ask of the C10 witness. -/
def c10Ask : Order := Order.make "a1" "bob" 7 99 false

/-- Crossed market of the C10 witness: a taker-sell matches the bid at the
bid's own limit price, so the full fill's refund amount is 0. -/
def c10Market : Market :=
  ⟨[(-100, [c10Bid])], [(99, [c10Ask])],
   [("b1", -100, true), ("a1", 99, false)], []⟩

/-- C10, witness: the full-fill theorem applied to the concrete market; the
buy order is fully filled at its own limit price and the emitted refund
transfer has amount 0. -/
theorem c10_witness :
    (matchStepBody false (-100) 99 c10Bid c10Ask [] [] [] []
        c10Market.open_orders c10Market.ledger).1.ledger =
      [⟨MARKET_ADDR, "alice", 5, SECONDARY_TOKEN_NAME⟩,
       ⟨MARKET_ADDR, "bob", 500, TOKEN_NAME⟩,
       ⟨MARKET_ADDR, "alice", 0, TOKEN_NAME⟩] :=
  ((c10_full_fill_refund false c10Market (-100) 99 c10Bid c10Ask [] [] [] []
      rfl rfl (by decide) (by decide)).2.2.1).trans (by decide)
